import Mathlib

/-!
Verification development for the hyperlink broken-link checker.

The link aggregation engine lives in src/collector.rs
(UsedLinkCollector, LinkState, BrokenLinkCollector, get_broken_links,
used_links_count) and the orchestration, classification loop,
attribution loop and exit-code logic live in src/main.rs.  Both are
embedded below as pure Lean functions.  Rust BTreeMap / BTreeSet values
are modelled as key-unique association lists / duplicate-free lists;
the claims proved here are about lookups, counts and multisets, which
do not depend on the sorted iteration order of a BTreeMap.
-/

set_option maxHeartbeats 1000000

/-! ### Generic association-list map (model of Rust BTreeMap) -/

/-- Lookup of the first binding of key `k` (model of BTreeMap::get). -/
def alook {κ α : Type} [DecidableEq κ] (k : κ) : List (κ × α) → Option α
  | [] => none
  | e :: rest => if k = e.1 then some e.2 else alook k rest

/-- Update the binding of `k` in place, or append a fresh binding
(model of the BTreeMap entry API: or_insert_with / insert). -/
def aupd {κ α : Type} [DecidableEq κ] (k : κ) (f : Option α → α) :
    List (κ × α) → List (κ × α)
  | [] => [(k, f none)]
  | e :: rest => if k = e.1 then (k, f (some e.2)) :: rest else e :: aupd k f rest

/-- The keys of an association list are pairwise distinct
(always true of a real BTreeMap). -/
def goodMap {κ α : Type} (m : List (κ × α)) : Prop :=
  m.Pairwise (fun a b => a.1 ≠ b.1)

theorem alook_aupd_self {κ α : Type} [DecidableEq κ] (k : κ) (f : Option α → α)
    (m : List (κ × α)) : alook k (aupd k f m) = some (f (alook k m)) := by
  induction m with
  | nil => simp [alook, aupd]
  | cons e rest ih =>
    by_cases hk : k = e.1
    · simp [alook, aupd, hk]
    · simp [alook, aupd, hk, ih]

theorem alook_aupd_ne {κ α : Type} [DecidableEq κ] {k k' : κ} (f : Option α → α)
    (m : List (κ × α)) (hne : k' ≠ k) : alook k' (aupd k f m) = alook k' m := by
  induction m with
  | nil => simp [alook, aupd, hne]
  | cons e rest ih =>
    by_cases hk : k = e.1
    · subst hk
      simp [alook, aupd, hne, ih]
    · by_cases hk' : k' = e.1
      · simp [alook, aupd, hk, hk']
      · simp [alook, aupd, hk, hk', ih]

theorem mem_aupd {κ α : Type} [DecidableEq κ] {k : κ} {f : Option α → α}
    {m : List (κ × α)} {e : κ × α} (he : e ∈ aupd k f m) :
    e.1 = k ∨ e ∈ m := by
  induction m with
  | nil =>
    simp [aupd] at he
    left
    rw [he]
  | cons e' rest ih =>
    by_cases hk : k = e'.1
    · simp [aupd, hk] at he
      rcases he with he | he
      · left; rw [he]; exact hk.symm
      · right; exact List.mem_cons_of_mem _ he
    · simp only [aupd, hk, if_false, List.mem_cons] at he
      rcases he with he | he
      · right; rw [he]; exact List.mem_cons_self _ _
      · rcases ih he with h | h
        · left; exact h
        · right; exact List.mem_cons_of_mem _ h

theorem goodMap_aupd {κ α : Type} [DecidableEq κ] (k : κ) (f : Option α → α)
    {m : List (κ × α)} (hm : goodMap m) : goodMap (aupd k f m) := by
  induction m with
  | nil =>
    simp [aupd, goodMap]
  | cons e rest ih =>
    rcases List.pairwise_cons.mp hm with ⟨hhead, hrest⟩
    by_cases hk : k = e.1
    · simp only [aupd, hk, if_true]
      exact List.pairwise_cons.mpr ⟨fun b hb => hk ▸ hhead b hb, hrest⟩
    · simp only [aupd, hk, if_false]
      refine List.pairwise_cons.mpr ⟨fun b hb => ?_, ih hrest⟩
      rcases mem_aupd hb with h | h
      · rw [h]; exact fun hc => hk hc.symm
      · exact hhead b h

theorem alook_eq_none {κ α : Type} [DecidableEq κ] {k : κ} {m : List (κ × α)}
    (h : ∀ e ∈ m, k ≠ e.1) : alook k m = none := by
  induction m with
  | nil => rfl
  | cons e rest ih =>
    simp only [alook, h e (List.mem_cons_self _ _), if_false]
    exact ih (fun e' he' => h e' (List.mem_cons_of_mem _ he'))

theorem alook_mem_good {κ α : Type} [DecidableEq κ] {m : List (κ × α)}
    (hm : goodMap m) {e : κ × α} (he : e ∈ m) : alook e.1 m = some e.2 := by
  induction m with
  | nil => cases he
  | cons e' rest ih =>
    rcases List.pairwise_cons.mp hm with ⟨hhead, hrest⟩
    rcases List.mem_cons.mp he with he | he
    · rw [he]; simp [alook]
    · have hne : e.1 ≠ e'.1 := fun hc => hhead e he hc.symm
      simp only [alook, hne, if_false]
      exact ih hrest he

/-! ### Link endpoint model

Modelled from the spec: the types `Href`, `UsedLink`, `DefinedLink` and
`Link` are declared in src/html.rs, which is not part of the sources
given here; §3 of the spec describes them as: Href = (path, optional
anchor fragment) with a `without_anchor` projection to the path-only
form; Uses records the Href, the referencing document's path and an
optional paragraph fingerprint; Defines records the Href (and an unused
paragraph).  The fingerprint type is kept as a type parameter `P`. -/

structure Href where
  path : String
  anchor : Option String
deriving DecidableEq, Repr

/-- Modelled from the spec: `without_anchor()` projects an Href to its
path-only form (src/html.rs, described in spec §3 and §6). -/
def Href.without_anchor (h : Href) : Href :=
  { h with anchor := none }

structure UsedLink (P : Type) where
  href : Href
  path : String
  paragraph : Option P
deriving DecidableEq, Repr

structure DefinedLink (P : Type) where
  href : Href
  paragraph : Option P
deriving DecidableEq, Repr

inductive Link (P : Type) where
  | Defines : DefinedLink P → Link P
  | Uses : UsedLink P → Link P
deriving DecidableEq, Repr

/-! ### UsedLinkCollector (src/collector.rs lines 13-33) -/

/-- Collects only used links. Discards defined links.
(src/collector.rs, `UsedLinkCollector`). -/
structure UsedLinkCollector (P : Type) where
  used_links : List (UsedLink P)
deriving DecidableEq, Repr

def UsedLinkCollector.new {P : Type} : UsedLinkCollector P :=
  { used_links := [] }

def UsedLinkCollector.ingest {P : Type} (c : UsedLinkCollector P) :
    Link P → UsedLinkCollector P
  | .Uses used_link => { used_links := c.used_links ++ [used_link] }
  | .Defines _ => c

def UsedLinkCollector.merge {P : Type} (c other : UsedLinkCollector P) :
    UsedLinkCollector P :=
  { used_links := c.used_links ++ other.used_links }

/-! ### LinkState and BrokenLinkCollector (src/collector.rs lines 35-140) -/

inductive LinkState (P : Type) where
  /-- We have observed a DefinedLink for this href. -/
  | Defined
  /-- No DefinedLink observed yet; all usages are retained for
  potential error reporting. -/
  | Undefined (links : List (UsedLink P))
deriving DecidableEq, Repr

/-- src/collector.rs `LinkState::add_usage`: push the usage when the
state is Undefined, do nothing when it is Defined. -/
def LinkState.add_usage {P : Type} : LinkState P → UsedLink P → LinkState P
  | .Undefined links, l => .Undefined (links ++ [l])
  | .Defined, _ => .Defined

/-- src/collector.rs `LinkState::update`: Defined wins; two Undefined
states concatenate their usage lists. -/
def LinkState.update {P : Type} : LinkState P → LinkState P → LinkState P
  | .Defined, _ => .Defined
  | .Undefined _, .Defined => .Defined
  | .Undefined links, .Undefined links2 => .Undefined (links ++ links2)

/-- src/collector.rs `BrokenLinkCollector`: Href → LinkState table
(a BTreeMap, modelled as a key-unique association list) plus the
running count of Uses events. -/
structure BrokenLinkCollector (P : Type) where
  links : List (Href × LinkState P)
  used_link_count : Nat

def BrokenLinkCollector.new {P : Type} : BrokenLinkCollector P :=
  { links := [], used_link_count := 0 }

/-- src/collector.rs `BrokenLinkCollector::ingest`. -/
def BrokenLinkCollector.ingest {P : Type} (c : BrokenLinkCollector P) :
    Link P → BrokenLinkCollector P
  | .Uses used_link =>
    { links := aupd used_link.href
        (fun s => (s.getD (.Undefined [])).add_usage used_link) c.links,
      used_link_count := c.used_link_count + 1 }
  | .Defines defined_link =>
    { links := aupd defined_link.href (fun _ => .Defined) c.links,
      used_link_count := c.used_link_count }

/-- src/collector.rs `BrokenLinkCollector::merge`: fold every entry of
`other` into `self`, combining states with `LinkState.update` on an
occupied entry and inserting on a vacant one. -/
def BrokenLinkCollector.merge {P : Type} (c other : BrokenLinkCollector P) :
    BrokenLinkCollector P :=
  { links := other.links.foldl
      (fun m e => aupd e.1
        (fun s => match s with
          | some state => state.update e.2
          | none => e.2) m) c.links,
    used_link_count := c.used_link_count + other.used_link_count }

structure BrokenLink (P : Type) where
  hard_404 : Bool
  used_link : UsedLink P
deriving DecidableEq, Repr

/-- Test for `self.links.get(&href) == Some(&LinkState::Defined)` as a Bool. -/
def isDefinedState {P : Type} : Option (LinkState P) → Bool
  | some .Defined => true
  | _ => false

/-- The hard_404 flag computed inside `get_broken_links`
(src/collector.rs lines 119-123). -/
def hardFlag {P : Type} (c : BrokenLinkCollector P) (check_anchors : Bool)
    (href : Href) : Bool :=
  if check_anchors then !isDefinedState (alook href.without_anchor c.links)
  else true

/-- src/collector.rs `BrokenLinkCollector::get_broken_links`: one
BrokenLink per retained usage of every Undefined entry. -/
def BrokenLinkCollector.get_broken_links {P : Type} (c : BrokenLinkCollector P)
    (check_anchors : Bool) : List (BrokenLink P) :=
  c.links.flatMap (fun e =>
    match e.2 with
    | .Defined => []
    | .Undefined links =>
      links.map (fun used_link =>
        { hard_404 := hardFlag c check_anchors e.1, used_link := used_link }))

/-- src/collector.rs `BrokenLinkCollector::used_links_count`. -/
def BrokenLinkCollector.used_links_count {P : Type}
    (c : BrokenLinkCollector P) : Nat :=
  c.used_link_count

/-! ### main.rs embedding

src/main.rs builds a BTreeSet of defined Hrefs and a BTreeMap from
Href to its usages, classifies each used-but-undefined Href as hard or
soft, attributes each broken usage to source documents via the
paragraph index, and derives the process exit status.  The parallel
directory walk (rayon try_fold + the sequential `result?` loop over the
per-worker results) is modelled as one sequential fallible fold over
the walk entries: an Err in any chunk makes `main` return before any
classification or report, exactly as the `result?` loop does. -/

/-- Model of BTreeSet::insert on a duplicate-free list: membership is
the only observable. -/
def insertSet (h : Href) (s : List Href) : List Href :=
  if s.contains h then s else s ++ [h]

/-- src/main.rs lines 258-259: an undefined used Href is hard iff
anchor checking is off or its anchor-stripped form is also undefined;
`none` means the Href is defined (not broken at all). -/
def classify (check_anchors : Bool) (defined_links : List Href)
    (href : Href) : Option Bool :=
  if defined_links.contains href then none
  else some (!check_anchors || !(defined_links.contains href.without_anchor))

/-- src/main.rs lines 253-264: the loop bumping bad_links_count /
bad_anchors_count once per broken Href (not per usage). -/
def countBad {P : Type} (check_anchors : Bool) (defined_links : List Href)
    (used_links : List (Href × List (UsedLink P))) : Nat × Nat :=
  used_links.foldl
    (fun acc e =>
      match classify check_anchors defined_links e.1 with
      | none => acc
      | some true => (acc.1 + 1, acc.2)
      | some false => (acc.1, acc.2 + 1))
    (0, 0)

/-- src/main.rs lines 343-351: exit 1 on any bad link, else exit 2 on
any bad anchor, else normal termination (status 0). -/
def exitCode (bad_links_count bad_anchors_count : Nat) : Nat :=
  if bad_links_count > 0 then 1
  else if bad_anchors_count > 0 then 2
  else 0

/-- The bad_links_and_anchors map: key = (is-fallback-attribution,
attributed path), value = (set of hard Hrefs, set of soft Hrefs). -/
def GroupedMap : Type :=
  List ((Bool × String) × (List Href × List Href))

/-- One `bad_links_and_anchors.entry(key)` insertion of `href` into
the hard or soft set (src/main.rs lines 275-279 and 285-289). -/
def recordHref (hard_404 : Bool) (href : Href) (key : Bool × String)
    (m : GroupedMap) : GroupedMap :=
  aupd key
    (fun v =>
      let v0 := v.getD ([], [])
      if hard_404 then (insertSet href v0.1, v0.2)
      else (v0.1, insertSet href v0.2))
    m

/-- src/main.rs lines 266-291: attribute one broken usage.  When the
usage carries a paragraph fingerprint present in the index, the Href is
recorded under (false, source path) for every source document of that
fingerprint; otherwise it is recorded once under (true, raw path). -/
def processLink {P : Type} [DecidableEq P] (hard_404 : Bool) (href : Href)
    (index : List (P × List String)) (m : GroupedMap) (link : UsedLink P) :
    GroupedMap :=
  match link.paragraph with
  | some paragraph =>
    match alook paragraph index with
    | some document_sources =>
      document_sources.foldl
        (fun m source => recordHref hard_404 href (false, source) m) m
    | none => recordHref hard_404 href (true, link.path) m
  | none => recordHref hard_404 href (true, link.path) m

/-- src/main.rs lines 257-293: the whole classification/attribution
loop over the used-links table. -/
def buildGrouped {P : Type} [DecidableEq P] (check_anchors : Bool)
    (defined_links : List Href) (index : List (P × List String))
    (used_links : List (Href × List (UsedLink P))) : GroupedMap :=
  used_links.foldl
    (fun m e =>
      match classify check_anchors defined_links e.1 with
      | none => m
      | some hard_404 => e.2.foldl (processLink hard_404 e.1 index) m)
    []

/-- src/main.rs lines 174-187: fold the extracted link events into the
defined-links set. -/
def buildDefined {P : Type} (links : List (Link P)) : List Href :=
  links.foldl
    (fun s e =>
      match e with
      | .Defines defined_link => insertSet defined_link.href s
      | .Uses _ => s)
    []

/-- src/main.rs lines 174-187: fold the extracted link events into the
used-links table (Href → usages, in discovery order). -/
def buildUsed {P : Type} (links : List (Link P)) :
    List (Href × List (UsedLink P)) :=
  links.foldl
    (fun m e =>
      match e with
      | .Uses used_link =>
        aupd used_link.href (fun v => v.getD [] ++ [used_link]) m
      | .Defines _ => m)
    []

/-- One entry yielded by the directory walk, as seen by the try_fold
closure of src/main.rs lines 106-160.  `walkError` stands for a failed
`entry?` / `metadata?`; `htmlFile` carries the outcome of the external
`Document::links` extraction for an html/htm file; `plainFile` is any
other regular file (which only defines its own Href); `nonFile` is a
directory or other skipped object. -/
inductive ScanEntry (P : Type) where
  | walkError (msg : String)
  | symlink (path : String)
  | nonFile (path : String)
  | plainFile (path : String) (href : Href)
  | htmlFile (path : String) (href : Href)
      (extracted : Except String (List (Link P)))
deriving Repr

/-- The try_fold closure body (src/main.rs lines 110-160), with the
accumulator (sink, documents_count, file_count). -/
def processEntry {P : Type} (acc : List (Link P) × Nat × Nat) :
    ScanEntry P → Except String (List (Link P) × Nat × Nat)
  | .walkError msg => .error msg
  | .symlink path => .error ("Found unsupported symlink at " ++ path)
  | .nonFile _ => .ok acc
  | .plainFile _ href =>
    .ok (acc.1 ++ [.Defines { href := href, paragraph := none }],
      acc.2.1, acc.2.2 + 1)
  | .htmlFile path href extracted =>
    match extracted with
    | .error e => .error ("Failed to read file " ++ path ++ ": " ++ e)
    | .ok links =>
      .ok (acc.1 ++ [.Defines { href := href, paragraph := none }] ++ links,
        acc.2.1 + 1, acc.2.2 + 1)

/-- The reading phase: the fold over all walk entries.  Any per-entry
failure short-circuits to an error, like the `result?` loop over the
workers' try_fold results. -/
def runScan {P : Type} (entries : List (ScanEntry P)) :
    Except String (List (Link P) × Nat × Nat) :=
  entries.foldlM processEntry ([], 0, 0)

/-- End-to-end model of `main` for a link-checking run: scan, build the
defined/used tables, classify, attribute, and compute the exit status.
An error anywhere in the scan is returned before any report exists. -/
def runMain {P : Type} [DecidableEq P] (check_anchors : Bool)
    (index : List (P × List String)) (entries : List (ScanEntry P)) :
    Except String (GroupedMap × Nat × Nat × Nat) :=
  match runScan entries with
  | .error e => .error e
  | .ok (links, _documents_count, _file_count) =>
    let defined_links := buildDefined links
    let used_links := buildUsed links
    let counts := countBad check_anchors defined_links used_links
    let grouped := buildGrouped check_anchors defined_links index used_links
    .ok (grouped, counts.1, counts.2, exitCode counts.1 counts.2)

/-- Entries on which the try_fold closure returns Err. -/
def fatalEntry {P : Type} : ScanEntry P → Bool
  | .walkError _ => true
  | .symlink _ => true
  | .htmlFile _ _ (.error _) => true
  | _ => false

/-! ### Characterization of collectors built by ingest and merge -/

/-- Relation `Builds c l`: the collector `c` arises from some tree of `new`,
`ingest` and `merge` operations whose ingested events, laid out left
to right, are the list `l`. -/
inductive Builds {P : Type} : BrokenLinkCollector P → List (Link P) → Prop where
  | new : Builds BrokenLinkCollector.new []
  | ingest {c : BrokenLinkCollector P} {l : List (Link P)} (e : Link P) :
      Builds c l → Builds (c.ingest e) (l ++ [e])
  | merge {c d : BrokenLinkCollector P} {l m : List (Link P)} :
      Builds c l → Builds d m → Builds (c.merge d) (l ++ m)

/-- Whether the event list contains a Defines event for `h`. -/
def hasDef {P : Type} (l : List (Link P)) (h : Href) : Bool :=
  l.any (fun e =>
    match e with
    | .Defines d => decide (d.href = h)
    | .Uses _ => false)

/-- All Uses events for `h` in the event list, in order. -/
def usagesOf {P : Type} (l : List (Link P)) (h : Href) : List (UsedLink P) :=
  l.filterMap (fun e =>
    match e with
    | .Uses u => if u.href = h then some u else none
    | .Defines _ => none)

/-- All Uses events of the event list, in order. -/
def usesOf {P : Type} (l : List (Link P)) : List (UsedLink P) :=
  l.filterMap (fun e =>
    match e with
    | .Uses u => some u
    | .Defines _ => none)

/-- The LinkState an event list determines for `h`: Defined as soon as
any Defines event occurs, else the retained usages, else absent. -/
def stateOf {P : Type} (l : List (Link P)) (h : Href) : Option (LinkState P) :=
  if hasDef l h then some .Defined
  else if (usagesOf l h).isEmpty then none
  else some (.Undefined (usagesOf l h))

/-- The usages a LinkState retains. -/
def stateUsages {P : Type} : LinkState P → List (UsedLink P)
  | .Defined => []
  | .Undefined links => links

theorem hasDef_append {P : Type} (l m : List (Link P)) (h : Href) :
    hasDef (l ++ m) h = (hasDef l h || hasDef m h) := by
  simp [hasDef, List.any_append]

theorem usagesOf_append {P : Type} (l m : List (Link P)) (h : Href) :
    usagesOf (l ++ m) h = usagesOf l h ++ usagesOf m h := by
  simp [usagesOf, List.filterMap_append]

theorem usesOf_append {P : Type} (l m : List (Link P)) :
    usesOf (l ++ m) = usesOf l ++ usesOf m := by
  simp [usesOf, List.filterMap_append]

theorem mem_usagesOf {P : Type} {l : List (Link P)} {h : Href}
    {u : UsedLink P} (hu : u ∈ usagesOf l h) : u.href = h := by
  simp only [usagesOf, List.mem_filterMap] at hu
  obtain ⟨e, _, heq⟩ := hu
  cases e with
  | Uses u' =>
    by_cases h' : u'.href = h
    · simp [h'] at heq
      rw [← heq]
      exact h'
    · simp [h'] at heq
  | Defines d => simp at heq

theorem ingest_alook {P : Type} (c : BrokenLinkCollector P) (e : Link P)
    (h : Href) :
    alook h (c.ingest e).links =
      match e with
      | .Uses u =>
        if u.href = h then
          some (((alook h c.links).getD (.Undefined [])).add_usage u)
        else alook h c.links
      | .Defines d =>
        if d.href = h then some .Defined else alook h c.links := by
  cases e with
  | Uses u =>
    by_cases hu : u.href = h
    · subst hu
      simp [BrokenLinkCollector.ingest, alook_aupd_self]
    · have hne : h ≠ u.href := fun hc => hu hc.symm
      simp [BrokenLinkCollector.ingest, alook_aupd_ne _ _ hne, hu]
  | Defines d =>
    by_cases hd : d.href = h
    · subst hd
      simp [BrokenLinkCollector.ingest, alook_aupd_self]
    · have hne : h ≠ d.href := fun hc => hd hc.symm
      simp [BrokenLinkCollector.ingest, alook_aupd_ne _ _ hne, hd]

/-- Pointwise combination of two optional LinkStates, as performed per
key by `BrokenLinkCollector.merge`. -/
def combineState {P : Type} :
    Option (LinkState P) → Option (LinkState P) → Option (LinkState P)
  | s, none => s
  | none, some t => some t
  | some s, some t => some (s.update t)

theorem combineState_none_right {P : Type} (s : Option (LinkState P)) :
    combineState s none = s := by
  cases s <;> rfl

theorem merge_fold_alook {P : Type} (es : List (Href × LinkState P)) :
    ∀ m0 : List (Href × LinkState P), goodMap es → ∀ h : Href,
    alook h (es.foldl
      (fun m e => aupd e.1
        (fun s => match s with
          | some state => state.update e.2
          | none => e.2) m) m0)
    = combineState (alook h m0) (alook h es) := by
  induction es with
  | nil =>
    intro m0 _ h
    simp [alook, combineState_none_right]
  | cons e rest ih =>
    intro m0 hg h
    rcases List.pairwise_cons.mp hg with ⟨hhead, hrest⟩
    simp only [List.foldl_cons]
    rw [ih _ hrest h]
    by_cases hh : h = e.1
    · subst hh
      have hrnone : alook e.1 rest = none :=
        alook_eq_none (fun b hb => hhead b hb)
      rw [hrnone, combineState_none_right, alook_aupd_self]
      simp only [alook, if_pos rfl]
      cases hc : alook e.1 m0 <;> simp [combineState, hc]
    · rw [alook_aupd_ne _ _ hh]
      have : alook h (e :: rest) = alook h rest := by
        simp [alook, hh]
      rw [this]

theorem merge_alook {P : Type} (c d : BrokenLinkCollector P)
    (hd : goodMap d.links) (h : Href) :
    alook h (c.merge d).links
      = combineState (alook h c.links) (alook h d.links) :=
  merge_fold_alook d.links c.links hd h

theorem goodMap_merge_fold {P : Type} (es : List (Href × LinkState P)) :
    ∀ m0 : List (Href × LinkState P), goodMap m0 →
    goodMap (es.foldl
      (fun m e => aupd e.1
        (fun s => match s with
          | some state => state.update e.2
          | none => e.2) m) m0) := by
  induction es with
  | nil => intro m0 hm; exact hm
  | cons e rest ih =>
    intro m0 hm
    simp only [List.foldl_cons]
    exact ih _ (goodMap_aupd _ _ hm)

theorem builds_good {P : Type} {c : BrokenLinkCollector P}
    {l : List (Link P)} (hb : Builds c l) : goodMap c.links := by
  induction hb with
  | new => exact List.Pairwise.nil
  | ingest e _ ih =>
    cases e with
    | Uses u => exact goodMap_aupd _ _ ih
    | Defines d => exact goodMap_aupd _ _ ih
  | merge _ _ ih1 ih2 => exact goodMap_merge_fold _ _ ih1

theorem combineState_defined_left {P : Type} (t : Option (LinkState P)) :
    combineState (some .Defined) t = some .Defined := by
  cases t with
  | none => rfl
  | some s => simp [combineState, LinkState.update]

/-- The central characterization: any collector built from `new` by
ingests and merges whose combined event list is `l` holds, at each
Href, exactly the state determined by `l`: Defined as soon as `l`
contains a Defines event, else all of the usages of `l`. -/
theorem alook_builds {P : Type} {c : BrokenLinkCollector P}
    {l : List (Link P)} (hb : Builds c l) (h : Href) :
    alook h c.links = stateOf l h := by
  induction hb with
  | new => simp [BrokenLinkCollector.new, alook, stateOf, hasDef, usagesOf]
  | @ingest c' l' e _ ih =>
    rw [ingest_alook]
    cases e with
    | Uses u =>
      by_cases hu : u.href = h
      · simp only [hu, if_pos rfl, ih]
        have h1 : hasDef (l' ++ [Link.Uses u]) h = hasDef l' h := by
          simp [hasDef_append, hasDef]
        have h2 : usagesOf (l' ++ [Link.Uses u]) h = usagesOf l' h ++ [u] := by
          simp [usagesOf_append, usagesOf, hu]
        by_cases hd : hasDef l' h
        · simp [stateOf, hd, h1, h2, LinkState.add_usage]
        · by_cases he : (usagesOf l' h).isEmpty
          · have he' : usagesOf l' h = [] := List.isEmpty_iff.mp he
            simp [stateOf, hd, h1, h2, he', LinkState.add_usage]
          · simp [stateOf, hd, h1, h2, he, LinkState.add_usage]
      · simp only [hu, if_neg hu, ih]
        have h1 : hasDef (l' ++ [Link.Uses u]) h = hasDef l' h := by
          simp [hasDef_append, hasDef]
        have h2 : usagesOf (l' ++ [Link.Uses u]) h = usagesOf l' h := by
          simp [usagesOf_append, usagesOf, hu]
        unfold stateOf
        rw [h1, h2]
        simp
    | Defines d =>
      by_cases hd : d.href = h
      · have h1 : hasDef (l' ++ [Link.Defines d]) h = true := by
          simp [hasDef_append, hasDef, hd]
        simp [hd, stateOf, h1]
      · have h1 : hasDef (l' ++ [Link.Defines d]) h = hasDef l' h := by
          simp [hasDef_append, hasDef, hd]
        have h2 : usagesOf (l' ++ [Link.Defines d]) h = usagesOf l' h := by
          simp [usagesOf_append, usagesOf]
        simp only [hd, if_neg hd, ih]
        unfold stateOf
        rw [h1, h2]
        simp
  | @merge c' d' l' m' _ hbd ih1 ih2 =>
    rw [merge_alook _ _ (builds_good hbd), ih1, ih2]
    by_cases hl : hasDef l' h
    · simp [stateOf, hasDef_append, hl, combineState_defined_left]
    · by_cases hm : hasDef m' h
      · by_cases he : (usagesOf l' h).isEmpty
        · simp [stateOf, hasDef_append, hl, hm, he, combineState]
        · simp [stateOf, hasDef_append, hl, hm, he, combineState,
            LinkState.update]
      · by_cases hel : (usagesOf l' h).isEmpty
        · have hel' : usagesOf l' h = [] := List.isEmpty_iff.mp hel
          by_cases hem : (usagesOf m' h).isEmpty
          · have hem' : usagesOf m' h = [] := List.isEmpty_iff.mp hem
            simp [stateOf, hasDef_append, usagesOf_append, hl, hm,
              hel', hem', combineState]
          · simp [stateOf, hasDef_append, usagesOf_append, hl, hm,
              hel', hem, combineState]
        · by_cases hem : (usagesOf m' h).isEmpty
          · have hem' : usagesOf m' h = [] := List.isEmpty_iff.mp hem
            simp [stateOf, hasDef_append, usagesOf_append, hl, hm,
              hel, hem', combineState]
          · have h3 : (usagesOf l' h ++ usagesOf m' h).isEmpty = false := by
              rw [Bool.eq_false_iff]
              intro hc
              rw [List.isEmpty_iff, List.append_eq_nil] at hc
              rw [List.isEmpty_iff] at hel
              exact hel hc.1
            simp [stateOf, hasDef_append, usagesOf_append, hl, hm,
              hel, hem, h3, combineState, LinkState.update]

theorem stateOf_defined_iff {P : Type} {l : List (Link P)} {h : Href} :
    stateOf l h = some LinkState.Defined ↔ hasDef l h = true := by
  unfold stateOf
  by_cases hd : hasDef l h
  · simp [hd]
  · simp only [hd, if_false, Bool.false_eq_true]
    constructor
    · intro h1
      split at h1 <;> simp_all
    · intro h1
      exact h1.elim

theorem stateOf_undefined_inv {P : Type} {l : List (Link P)} {h : Href}
    {us : List (UsedLink P)} (h1 : stateOf l h = some (LinkState.Undefined us)) :
    hasDef l h = false ∧ us = usagesOf l h := by
  unfold stateOf at h1
  by_cases hd : hasDef l h
  · simp [hd] at h1
  · refine ⟨Bool.eq_false_iff.mpr hd, ?_⟩
    by_cases he : (usagesOf l h).isEmpty
    · simp [hd, he] at h1
    · simp only [hd, if_false, he, Bool.false_eq_true,
        Option.some.injEq, LinkState.Undefined.injEq] at h1
      exact h1.symm

theorem builds_keysOK {P : Type} {c : BrokenLinkCollector P}
    {l : List (Link P)} (hb : Builds c l) :
    ∀ e ∈ c.links, ∀ u ∈ stateUsages e.2, u.href = e.1 := by
  intro e he u hu
  have hg := builds_good hb
  have h1 : alook e.1 c.links = some e.2 := alook_mem_good hg he
  rw [alook_builds hb] at h1
  cases hs : e.2 with
  | Defined =>
    rw [hs] at hu
    cases hu
  | Undefined us =>
    rw [hs] at hu h1
    have h2 := (stateOf_undefined_inv h1).2
    exact mem_usagesOf (h2 ▸ hu)

/-- Rewriting `get_broken_links` uniformly over `stateUsages`. -/
theorem get_broken_links_eq {P : Type} (c : BrokenLinkCollector P)
    (check_anchors : Bool) :
    c.get_broken_links check_anchors
      = c.links.flatMap (fun e => (stateUsages e.2).map
          (fun u => ({ hard_404 := hardFlag c check_anchors e.1,
                       used_link := u } : BrokenLink P))) := by
  unfold BrokenLinkCollector.get_broken_links
  congr 1
  funext e
  cases h2 : e.2 <;> simp [stateUsages]

theorem flatMap_filter_href {P : Type} (flag : Href → Bool) (h : Href) :
    ∀ m : List (Href × LinkState P), goodMap m →
    (∀ e ∈ m, ∀ u ∈ stateUsages e.2, u.href = e.1) →
    ((m.flatMap (fun e => (stateUsages e.2).map
        (fun u => ({ hard_404 := flag e.1, used_link := u } : BrokenLink P)))).filter
      (fun b => decide (b.used_link.href = h)))
    = (match alook h m with
       | some s => (stateUsages s).map
           (fun u => { hard_404 := flag h, used_link := u })
       | none => []) := by
  intro m
  induction m with
  | nil => intro _ _; rfl
  | cons e rest ih =>
    intro hg hk
    rcases List.pairwise_cons.mp hg with ⟨hhead, hrest⟩
    have hkrest : ∀ e' ∈ rest, ∀ u ∈ stateUsages e'.2, u.href = e'.1 :=
      fun e' he' => hk e' (List.mem_cons_of_mem _ he')
    have hke : ∀ u ∈ stateUsages e.2, u.href = e.1 :=
      hk e (List.mem_cons_self _ _)
    rw [List.flatMap_cons, List.filter_append, ih hrest hkrest]
    by_cases hh : h = e.1
    · subst hh
      have hrnone : alook e.1 rest = none :=
        alook_eq_none (fun b hb => hhead b hb)
      rw [hrnone]
      have hfull : ((stateUsages e.2).map
          (fun u => ({ hard_404 := flag e.1, used_link := u } : BrokenLink P))).filter
            (fun b => decide (b.used_link.href = e.1))
          = (stateUsages e.2).map
              (fun u => { hard_404 := flag e.1, used_link := u }) := by
        rw [List.filter_map]
        have : (stateUsages e.2).filter
            ((fun b => decide ((b : BrokenLink P).used_link.href = e.1)) ∘
              (fun u => { hard_404 := flag e.1, used_link := u })) = stateUsages e.2 :=
          List.filter_eq_self.mpr (fun u hu => by simp [hke u hu])
        rw [this]
      rw [hfull]
      simp [alook]
    · have hempty : ((stateUsages e.2).map
          (fun u => ({ hard_404 := flag e.1, used_link := u } : BrokenLink P))).filter
            (fun b => decide (b.used_link.href = h)) = [] := by
        refine List.filter_eq_nil_iff.mpr ?_
        intro b hb
        simp only [List.mem_map] at hb
        obtain ⟨u, hu, hbu⟩ := hb
        rw [← hbu]
        simp only [decide_eq_true_eq]
        rw [hke u hu]
        exact fun hc => hh hc.symm
      rw [hempty]
      have : alook h (e :: rest) = alook h rest := by simp [alook, hh]
      rw [this]
      simp

/-- Direct ingestion of a whole event list into a fresh collector. -/
def ingestAll {P : Type} (l : List (Link P)) : BrokenLinkCollector P :=
  l.foldl BrokenLinkCollector.ingest BrokenLinkCollector.new

theorem builds_foldl {P : Type} {c : BrokenLinkCollector P}
    {l : List (Link P)} (hb : Builds c l) :
    ∀ m : List (Link P), Builds (m.foldl BrokenLinkCollector.ingest c) (l ++ m) := by
  intro m
  induction m generalizing c l with
  | nil => simpa using hb
  | cons e rest ih =>
    have h1 := ih (Builds.ingest e hb)
    simpa using h1

theorem ingestAll_builds {P : Type} (l : List (Link P)) :
    Builds (ingestAll l) l := by
  have h1 := builds_foldl Builds.new l
  simpa [ingestAll] using h1

theorem builds_count {P : Type} {c : BrokenLinkCollector P}
    {l : List (Link P)} (hb : Builds c l) :
    c.used_link_count = (usesOf l).length := by
  induction hb with
  | new => rfl
  | @ingest c' l' e _ ih =>
    cases e with
    | Uses u =>
      simp [BrokenLinkCollector.ingest, usesOf_append, usesOf, ih]
    | Defines d =>
      simp [BrokenLinkCollector.ingest, usesOf_append, usesOf, ih]
  | @merge c' d' l' m' _ _ ih1 ih2 =>
    simp [BrokenLinkCollector.merge, usesOf_append, ih1, ih2]

theorem update_defined_right {P : Type} (s : LinkState P) :
    s.update LinkState.Defined = LinkState.Defined := by
  cases s <;> rfl

theorem combineState_defined_right {P : Type} (s : Option (LinkState P)) :
    combineState s (some LinkState.Defined) = some LinkState.Defined := by
  cases s with
  | none => rfl
  | some s' => simp [combineState, update_defined_right]

/-! ### Views and example data -/

/-- The (is-Defined, usage multiset) abstraction of a LinkState. -/
def stateView {P : Type} : LinkState P → Bool × Multiset (UsedLink P)
  | .Defined => (true, 0)
  | .Undefined us => (false, (us : Multiset (UsedLink P)))

/-- The mapping Href → (is-Defined, usage multiset) determined by a
collector, the observable the merge contract speaks about. -/
def collectorView {P : Type} (c : BrokenLinkCollector P) (h : Href) :
    Option (Bool × Multiset (UsedLink P)) :=
  (alook h c.links).map stateView

theorem stateView_swap {P : Type} (l1 l2 : List (Link P)) (h : Href) :
    (stateOf (l2 ++ l1) h).map stateView
      = (stateOf (l1 ++ l2) h).map stateView := by
  unfold stateOf
  rw [hasDef_append, hasDef_append, usagesOf_append, usagesOf_append]
  by_cases h1 : hasDef l1 h
  · simp [h1]
  · by_cases h2 : hasDef l2 h
    · simp [h1, h2]
    · have h1' : hasDef l1 h = false := Bool.eq_false_iff.mpr h1
      have h2' : hasDef l2 h = false := Bool.eq_false_iff.mpr h2
      have hie : (usagesOf l2 h ++ usagesOf l1 h).isEmpty
          = (usagesOf l1 h ++ usagesOf l2 h).isEmpty := by
        cases hu1 : usagesOf l1 h <;> cases hu2 : usagesOf l2 h <;>
          simp [List.isEmpty]
      by_cases he : (usagesOf l1 h ++ usagesOf l2 h).isEmpty
      · simp [h1', h2', he, hie]
      · have he2 : (usagesOf l2 h ++ usagesOf l1 h).isEmpty = false := by
          rw [hie]; exact Bool.eq_false_iff.mpr he
        have he1 : (usagesOf l1 h ++ usagesOf l2 h).isEmpty = false :=
          Bool.eq_false_iff.mpr he
        simp [h1', h2', he1, he2, stateView]
        exact List.perm_append_comm

def exHrefA : Href := { path := "/a.html", anchor := none }

def exHrefB : Href := { path := "/b.html", anchor := none }

def exUseA : UsedLink Nat :=
  { href := exHrefA, path := "index.html", paragraph := none }

def exUseB : UsedLink Nat :=
  { href := exHrefB, path := "index.html", paragraph := none }

/-- Events: /a.html is defined and used once; /b.html is used once but
never defined. -/
def exEvents : List (Link Nat) :=
  [Link.Defines { href := exHrefA, paragraph := none },
   Link.Uses exUseA, Link.Uses exUseB]

def exHrefAnchorless : Href := { path := "/a", anchor := none }

def exHrefAX : Href := { path := "/a", anchor := some "x" }

def exUseAX : UsedLink Nat :=
  { href := exHrefAX, path := "page.html", paragraph := none }

/-- Events: `/a` is defined, `/a#x` is used but undefined. -/
def exAnchorEvents : List (Link Nat) :=
  [Link.Defines { href := exHrefAnchorless, paragraph := none },
   Link.Uses exUseAX]

/-! ### Shared consequences of Defined states -/

theorem isDefinedState_iff {P : Type} (x : Option (LinkState P)) :
    isDefinedState x = true ↔ x = some LinkState.Defined := by
  cases x with
  | none => simp [isDefinedState]
  | some s => cases s <;> simp [isDefinedState]

/-- A collector never reports a finding for an Href that received a
Defines event anywhere in its input. -/
theorem no_findings_of_hasDef {P : Type} {c : BrokenLinkCollector P}
    {l : List (Link P)} (hb : Builds c l) {h : Href}
    (hd : hasDef l h = true) (ca : Bool) (b : BrokenLink P)
    (hmem : b ∈ c.get_broken_links ca) : b.used_link.href ≠ h := by
  intro hcontra
  rw [get_broken_links_eq, List.mem_flatMap] at hmem
  obtain ⟨e, he, hbe⟩ := hmem
  rw [List.mem_map] at hbe
  obtain ⟨u, hu, hub⟩ := hbe
  have h1 : u.href = e.1 := builds_keysOK hb e he u hu
  have h2 : b.used_link = u := by rw [← hub]
  have h3 : e.1 = h := by rw [← h1, ← h2, hcontra]
  have h4 : alook e.1 c.links = some e.2 := alook_mem_good (builds_good hb) he
  rw [h3, alook_builds hb, stateOf_defined_iff.mpr hd] at h4
  have h5 : e.2 = LinkState.Defined := by
    injection h4.symm
  rw [h5] at hu
  cases hu

/-! ### Claim theorems: the aggregation engine -/

/-- C1: merging any two independently-built collectors, in either order, yields
pointwise the same (is-Defined, usage-multiset) mapping as ingesting
all events into one collector; per Href, Defined beats Undefined
unconditionally in `LinkState.update` and two Undefined states
concatenate their usage lists. -/
theorem merge_partition_agrees {P : Type} (l1 l2 : List (Link P)) (h : Href) :
    collectorView ((ingestAll l1).merge (ingestAll l2)) h
        = collectorView (ingestAll (l1 ++ l2)) h
    ∧ collectorView ((ingestAll l2).merge (ingestAll l1)) h
        = collectorView (ingestAll (l1 ++ l2)) h
    ∧ (∀ s : LinkState P, LinkState.Defined.update s = LinkState.Defined)
    ∧ (∀ s : LinkState P, s.update LinkState.Defined = LinkState.Defined)
    ∧ (∀ us vs : List (UsedLink P),
        (LinkState.Undefined us).update (LinkState.Undefined vs)
          = LinkState.Undefined (us ++ vs)) := by
  have b1 := Builds.merge (ingestAll_builds l1) (ingestAll_builds l2)
  have b2 := Builds.merge (ingestAll_builds l2) (ingestAll_builds l1)
  have b3 := ingestAll_builds (l1 ++ l2)
  refine ⟨?_, ?_, fun s => rfl, update_defined_right, fun us vs => rfl⟩
  · unfold collectorView
    rw [alook_builds b1 h, alook_builds b3 h]
  · unfold collectorView
    rw [alook_builds b2 h, alook_builds b3 h]
    exact stateView_swap l1 l2 h

/-- C2: once an Href's state is Defined it stays Defined under any
further ingest and under merge in either direction; a Defines event for
a currently-Undefined Href replaces the state (and all accumulated
usages) with Defined; an Href with a Defines event anywhere in the
input never appears among the broken-link findings. -/
theorem defined_wins {P : Type} {c : BrokenLinkCollector P}
    {l : List (Link P)} (hb : Builds c l) (h : Href) :
    (alook h c.links = some LinkState.Defined →
      (∀ e : Link P, alook h (c.ingest e).links = some LinkState.Defined) ∧
      (∀ (d : BrokenLinkCollector P) (m : List (Link P)), Builds d m →
        alook h (c.merge d).links = some LinkState.Defined ∧
        alook h (d.merge c).links = some LinkState.Defined)) ∧
    (∀ (us : List (UsedLink P)) (dl : DefinedLink P),
      alook h c.links = some (LinkState.Undefined us) → dl.href = h →
      alook h (c.ingest (Link.Defines dl)).links = some LinkState.Defined) ∧
    (hasDef l h = true →
      ∀ (ca : Bool) (b : BrokenLink P), b ∈ c.get_broken_links ca →
        b.used_link.href ≠ h) := by
  refine ⟨?_, ?_, fun hd ca b hmem => no_findings_of_hasDef hb hd ca b hmem⟩
  · intro hdef
    constructor
    · intro e
      rw [ingest_alook]
      cases e with
      | Uses u =>
        by_cases hu : u.href = h
        · simp [hu, hdef, LinkState.add_usage]
        · simp [hu, hdef]
      | Defines d =>
        by_cases hd : d.href = h
        · simp [hd]
        · simp [hd, hdef]
    · intro d m hm
      constructor
      · rw [merge_alook c d (builds_good hm), hdef]
        exact combineState_defined_left _
      · rw [merge_alook d c (builds_good hb), hdef]
        exact combineState_defined_right _
  · intro us dl _ hdl
    rw [ingest_alook]
    simp [hdl]

/-- C2 witness: in the concrete run `exEvents`, /a.html got a Defines
event, and indeed the one finding reported is not about /a.html. -/
theorem defined_wins_witness :
    ({ hard_404 := true, used_link := exUseB } : BrokenLink Nat)
        ∈ (ingestAll exEvents).get_broken_links true ∧
    ({ hard_404 := true, used_link := exUseB } : BrokenLink Nat).used_link.href
        ≠ exHrefA :=
  ⟨by decide,
   (defined_wins (ingestAll_builds exEvents) exHrefA).2.2 (by decide) true _
     (by decide)⟩

/-- C4: the finished collector reports exactly one finding per retained
usage of each Undefined Href (n usages ↦ n findings), and no finding at
all for a Defined Href. -/
theorem findings_fanout {P : Type} {c : BrokenLinkCollector P}
    {l : List (Link P)} (hb : Builds c l) (ca : Bool) (h : Href) :
    (∀ us : List (UsedLink P),
      alook h c.links = some (LinkState.Undefined us) →
      ((c.get_broken_links ca).filter
          (fun b => decide (b.used_link.href = h))).length = us.length) ∧
    (alook h c.links = some LinkState.Defined →
      (c.get_broken_links ca).filter
          (fun b => decide (b.used_link.href = h)) = []) := by
  have hfilter := flatMap_filter_href (hardFlag c ca) h c.links
    (builds_good hb) (builds_keysOK hb)
  constructor
  · intro us hus
    rw [get_broken_links_eq, hfilter, hus]
    simp [stateUsages]
  · intro hdef
    rw [get_broken_links_eq, hfilter, hdef]
    rfl

/-- C4 witness at the concrete run `exEvents`: /b.html has exactly one
retained usage and exactly one finding. -/
theorem findings_fanout_witness :
    alook exHrefB (ingestAll exEvents).links
        = some (LinkState.Undefined [exUseB]) ∧
    (((ingestAll exEvents).get_broken_links true).filter
        (fun b => decide (b.used_link.href = exHrefB))).length
      = [exUseB].length :=
  ⟨by decide,
   (findings_fanout (ingestAll_builds exEvents) true exHrefB).1 [exUseB]
     (by decide)⟩

/-- C9: used_links_count equals the total number of Uses events
ingested anywhere (directly or through merged collectors), even though
`add_usage` silently drops the UsedLink record itself on a Defined
state, so such usages never yield findings. -/
theorem used_links_count_total {P : Type} {c : BrokenLinkCollector P}
    {l : List (Link P)} (hb : Builds c l) :
    c.used_links_count = (usesOf l).length ∧
    (∀ u : UsedLink P, LinkState.Defined.add_usage u = LinkState.Defined) ∧
    (∀ h : Href, hasDef l h = true →
      ∀ (ca : Bool) (b : BrokenLink P), b ∈ c.get_broken_links ca →
        b.used_link.href ≠ h) :=
  ⟨builds_count hb, fun _ => rfl,
   fun _ hd ca b hmem => no_findings_of_hasDef hb hd ca b hmem⟩

/-- C9 witness: the concrete run `exEvents` contains two Uses events
(one of them for the already-defined /a.html) and the count is 2. -/
theorem used_links_count_total_witness :
    (ingestAll exEvents).used_links_count = (usesOf exEvents).length :=
  (used_links_count_total (ingestAll_builds exEvents)).1

/-- C3: a finding's hard_404 flag is true iff anchor checking is
disabled or the Href's anchor-stripped projection is not Defined in the
table; on the concrete `/a` defined, `/a#x` used input, check_anchors
true yields one soft finding and check_anchors false one hard finding. -/
theorem anchor_classification {P : Type} {c : BrokenLinkCollector P}
    {l : List (Link P)} (hb : Builds c l) (ca : Bool) (h : Href) :
    (∀ b ∈ c.get_broken_links ca, b.used_link.href = h →
      (b.hard_404 = true ↔
        (ca = false ∨
          alook h.without_anchor c.links ≠ some LinkState.Defined))) ∧
    (ingestAll exAnchorEvents).get_broken_links true
        = [{ hard_404 := false, used_link := exUseAX }] ∧
    (ingestAll exAnchorEvents).get_broken_links false
        = [{ hard_404 := true, used_link := exUseAX }] := by
  refine ⟨?_, by decide, by decide⟩
  intro b hmem hh
  rw [get_broken_links_eq, List.mem_flatMap] at hmem
  obtain ⟨e, he, hbe⟩ := hmem
  rw [List.mem_map] at hbe
  obtain ⟨u, hu, hub⟩ := hbe
  have h1 : u.href = e.1 := builds_keysOK hb e he u hu
  have h2 : b.hard_404 = hardFlag c ca e.1 := by rw [← hub]
  have h3 : e.1 = h := by
    rw [← h1, ← hh, ← hub]
  rw [h2, h3]
  unfold hardFlag
  cases ca with
  | false => simp
  | true =>
    simp only [if_true, Bool.not_eq_true']
    cases hv : isDefinedState (alook h.without_anchor c.links) with
    | false =>
      constructor
      · intro _
        refine Or.inr ?_
        intro hc
        rw [hc] at hv
        simp [isDefinedState] at hv
      · intro _
        trivial
    | true =>
      have hdef := (isDefinedState_iff (alook h.without_anchor c.links)).mp hv
      simp [hdef]

/-- C3 witness: the soft finding of the concrete `/a` / `/a#x` run
satisfies the classification equivalence. -/
theorem anchor_classification_witness :
    ({ hard_404 := false, used_link := exUseAX } : BrokenLink Nat)
        ∈ (ingestAll exAnchorEvents).get_broken_links true ∧
    (({ hard_404 := false, used_link := exUseAX } : BrokenLink Nat).hard_404
          = true ↔
      ((true : Bool) = false ∨
        alook exHrefAX.without_anchor (ingestAll exAnchorEvents).links
          ≠ some LinkState.Defined)) :=
  ⟨by decide,
   (anchor_classification (ingestAll_builds exAnchorEvents) true exHrefAX).1 _
     (by decide) (by decide)⟩

/-! ### The UsedLinkCollector contract (C8) -/

/-- Relation `BuildsU c l`: the flat usage collector `c` arises from some tree
of `new`, `ingest` and `merge` operations over the event list `l`. -/
inductive BuildsU {P : Type} : UsedLinkCollector P → List (Link P) → Prop where
  | new : BuildsU UsedLinkCollector.new []
  | ingest {c : UsedLinkCollector P} {l : List (Link P)} (e : Link P) :
      BuildsU c l → BuildsU (c.ingest e) (l ++ [e])
  | merge {c d : UsedLinkCollector P} {l m : List (Link P)} :
      BuildsU c l → BuildsU d m → BuildsU (c.merge d) (l ++ m)

theorem buildsU_used_links {P : Type} {c : UsedLinkCollector P}
    {l : List (Link P)} (hb : BuildsU c l) : c.used_links = usesOf l := by
  induction hb with
  | new => rfl
  | @ingest c' l' e _ ih =>
    cases e with
    | Uses u => simp [UsedLinkCollector.ingest, usesOf_append, usesOf, ih]
    | Defines d => simp [UsedLinkCollector.ingest, usesOf_append, usesOf, ih]
  | @merge c' d' l' m' _ _ ih1 ih2 =>
    simp [UsedLinkCollector.merge, usesOf_append, ih1, ih2]

/-- C8: the flat collector retains exactly the Uses events of its
combined input (as a multiset): a Uses event appends its UsedLink, a
Defines event is a no-op, and merge concatenates the collections; it
offers the same new/ingest/merge contract as the classifier. -/
theorem used_collector_contract {P : Type} {c : UsedLinkCollector P}
    {l : List (Link P)} (hb : BuildsU c l) :
    (c.used_links : Multiset (UsedLink P))
        = (usesOf l : Multiset (UsedLink P)) ∧
    (∀ (c' : UsedLinkCollector P) (u : UsedLink P),
        c'.ingest (Link.Uses u)
          = { used_links := c'.used_links ++ [u] }) ∧
    (∀ (c' : UsedLinkCollector P) (d : DefinedLink P),
        c'.ingest (Link.Defines d) = c') ∧
    (∀ a b : UsedLinkCollector P,
        a.merge b = { used_links := a.used_links ++ b.used_links }) :=
  ⟨by rw [buildsU_used_links hb], fun c' u => rfl, fun c' d => rfl,
   fun a b => rfl⟩

/-- C8 witness: a concrete ingest of one Uses event. -/
theorem used_collector_contract_witness :
    ((UsedLinkCollector.new.ingest (Link.Uses exUseA)).used_links
        : Multiset (UsedLink Nat))
      = (usesOf ([] ++ [Link.Uses exUseA]) : Multiset (UsedLink Nat)) :=
  (used_collector_contract (BuildsU.ingest (Link.Uses exUseA) BuildsU.new)).1

/-! ### Exit-status contract (src/main.rs) -/

theorem countBad_aux {P : Type} (ca : Bool) (defined_links : List Href) :
    ∀ (used : List (Href × List (UsedLink P))) (acc : Nat × Nat),
    used.foldl
      (fun acc e =>
        match classify ca defined_links e.1 with
        | none => acc
        | some true => (acc.1 + 1, acc.2)
        | some false => (acc.1, acc.2 + 1)) acc
    = (acc.1 + used.countP
          (fun e => decide (classify ca defined_links e.1 = some true)),
       acc.2 + used.countP
          (fun e => decide (classify ca defined_links e.1 = some false))) := by
  intro used
  induction used with
  | nil => intro acc; simp
  | cons e rest ih =>
    intro acc
    rw [List.foldl_cons, ih]
    cases hc : classify ca defined_links e.1 with
    | none => simp [hc, List.countP_cons]
    | some b =>
      cases b with
      | true =>
        simp only [hc, List.countP_cons, decide_eq_true_eq, Option.some.injEq,
          Prod.mk.injEq]
        constructor <;> simp <;> omega
      | false =>
        simp only [hc, List.countP_cons, decide_eq_true_eq, Option.some.injEq,
          Prod.mk.injEq]
        constructor <;> simp <;> omega

theorem countBad_spec {P : Type} (ca : Bool) (defined_links : List Href)
    (used : List (Href × List (UsedLink P))) :
    countBad ca defined_links used
      = (used.countP
           (fun e => decide (classify ca defined_links e.1 = some true)),
         used.countP
           (fun e => decide (classify ca defined_links e.1 = some false))) := by
  unfold countBad
  rw [countBad_aux]
  simp

/-- C5: exit status 0 exactly when there is neither a hard nor a soft
failure; status 1 whenever some used Href is classified hard
(regardless of soft failures); status 2 when some Href is classified
soft and none hard; the three codes are pairwise distinct. -/
theorem exit_status_contract {P : Type} (ca : Bool)
    (defined_links : List Href)
    (used : List (Href × List (UsedLink P))) :
    ((¬ ∃ e ∈ used, classify ca defined_links e.1 = some true) →
     (¬ ∃ e ∈ used, classify ca defined_links e.1 = some false) →
      exitCode (countBad ca defined_links used).1
        (countBad ca defined_links used).2 = 0) ∧
    ((∃ e ∈ used, classify ca defined_links e.1 = some true) →
      exitCode (countBad ca defined_links used).1
        (countBad ca defined_links used).2 = 1) ∧
    ((∃ e ∈ used, classify ca defined_links e.1 = some false) →
     (¬ ∃ e ∈ used, classify ca defined_links e.1 = some true) →
      exitCode (countBad ca defined_links used).1
        (countBad ca defined_links used).2 = 2) ∧
    ((0 : Nat) ≠ 1 ∧ (0 : Nat) ≠ 2 ∧ (1 : Nat) ≠ 2) := by
  rw [countBad_spec]
  refine ⟨?_, ?_, ?_, by omega, by omega, by omega⟩
  · intro h1 h2
    have c1 : used.countP
        (fun e => decide (classify ca defined_links e.1 = some true)) = 0 := by
      apply List.countP_eq_zero.mpr
      intro e he
      simp only [decide_eq_true_eq]
      exact fun hc => h1 ⟨e, he, hc⟩
    have c2 : used.countP
        (fun e => decide (classify ca defined_links e.1 = some false)) = 0 := by
      apply List.countP_eq_zero.mpr
      intro e he
      simp only [decide_eq_true_eq]
      exact fun hc => h2 ⟨e, he, hc⟩
    simp [exitCode, c1, c2]
  · intro h1
    have c1 : 0 < used.countP
        (fun e => decide (classify ca defined_links e.1 = some true)) := by
      rw [List.countP_pos_iff]
      obtain ⟨e, he, hc⟩ := h1
      exact ⟨e, he, by simp [hc]⟩
    simp [exitCode, c1]
  · intro h1 h2
    have c1 : used.countP
        (fun e => decide (classify ca defined_links e.1 = some true)) = 0 := by
      apply List.countP_eq_zero.mpr
      intro e he
      simp only [decide_eq_true_eq]
      exact fun hc => h2 ⟨e, he, hc⟩
    have c2 : 0 < used.countP
        (fun e => decide (classify ca defined_links e.1 = some false)) := by
      rw [List.countP_pos_iff]
      obtain ⟨e, he, hc⟩ := h1
      exact ⟨e, he, by simp [hc]⟩
    simp [exitCode, c1, c2]

/-- The used-links table of a run where /b.html is used but undefined. -/
def exUsedTable : List (Href × List (UsedLink Nat)) :=
  [(exHrefB, [exUseB])]

/-- C5 witness: the run with one undefined used Href exits with 1. -/
theorem exit_status_contract_witness :
    (∃ e ∈ exUsedTable, classify false [] e.1 = some true) ∧
    exitCode (countBad false [] exUsedTable).1
      (countBad false [] exUsedTable).2 = 1 :=
  ⟨⟨(exHrefB, [exUseB]), by decide, by decide⟩,
   (exit_status_contract false [] exUsedTable).2.1
     ⟨(exHrefB, [exUseB]), by decide, by decide⟩⟩

/-- C10: with anchor checking disabled every undefined used Href is
classified hard, the bad-anchor counter stays 0, and the exit status is
0 or 1, never the anchor code 2. -/
theorem no_soft_without_anchor_check {P : Type} (defined_links : List Href)
    (used : List (Href × List (UsedLink P))) :
    (countBad false defined_links used).2 = 0 ∧
    (∀ h : Href, defined_links.contains h = false →
      classify false defined_links h = some true) ∧
    exitCode (countBad false defined_links used).1
        (countBad false defined_links used).2 ≠ 2 ∧
    (exitCode (countBad false defined_links used).1
        (countBad false defined_links used).2 = 0 ∨
     exitCode (countBad false defined_links used).1
        (countBad false defined_links used).2 = 1) := by
  have hz : (countBad false defined_links used).2 = 0 := by
    rw [countBad_spec]
    apply List.countP_eq_zero.mpr
    intro e he
    simp only [decide_eq_true_eq]
    intro hc
    unfold classify at hc
    by_cases hcont : defined_links.contains e.1
    · simp [hcont] at hc
    · simp [hcont] at hc
  refine ⟨hz, ?_, ?_, ?_⟩
  · intro h hcont
    unfold classify
    simp [hcont]
    simpa using hcont
  · rw [exitCode, hz]
    by_cases h1 : (countBad false defined_links used).1 > 0
    · simp [h1]
    · simp [h1]
  · rw [exitCode, hz]
    by_cases h1 : (countBad false defined_links used).1 > 0
    · right; simp [h1]
    · left; simp [h1]

/-- C10 witness: an undefined Href under check_anchors = false is hard,
and the empty run's anchor counter is 0. -/
theorem no_soft_without_anchor_check_witness :
    (countBad false [] exUsedTable).2 = 0 ∧
    classify false ([] : List Href) exHrefB = some true :=
  ⟨(no_soft_without_anchor_check ([] : List Href) exUsedTable).1,
   (no_soft_without_anchor_check ([] : List Href)
       ([] : List (Href × List (UsedLink Nat)))).2.1 exHrefB (by decide)⟩

/-! ### Attribution (src/main.rs lines 266-291) -/

/-- Whether `href` is recorded in the hard (resp. soft) set of the
grouped entry at `key`. -/
def attributed (m : GroupedMap) (key : Bool × String) (hard_404 : Bool)
    (href : Href) : Bool :=
  match alook key m with
  | some v => decide (href ∈ (if hard_404 then v.1 else v.2))
  | none => false

theorem mem_insertSet_self (h : Href) (s : List Href) : h ∈ insertSet h s := by
  unfold insertSet
  by_cases hc : s.contains h
  · rw [if_pos hc]
    simpa using hc
  · rw [if_neg hc]
    simp

theorem mem_insertSet_of_mem {a : Href} {s : List Href} (h : Href)
    (ha : a ∈ s) : a ∈ insertSet h s := by
  unfold insertSet
  by_cases hc : s.contains h
  · rwa [if_pos hc]
  · rw [if_neg hc]
    exact List.mem_append_left _ ha

theorem attributed_recordHref_self (hard_404 : Bool) (href : Href)
    (key : Bool × String) (m : GroupedMap) :
    attributed (recordHref hard_404 href key m) key hard_404 href = true := by
  unfold attributed recordHref
  rw [alook_aupd_self]
  cases alook key m with
  | none => cases hard_404 <;> simp [mem_insertSet_self]
  | some v => cases hard_404 <;> simp [mem_insertSet_self]

theorem alook_recordHref_ne {key k' : Bool × String} (hard_404 : Bool)
    (href : Href) (m : GroupedMap) (hne : k' ≠ key) :
    alook k' (recordHref hard_404 href key m) = alook k' m :=
  alook_aupd_ne _ _ hne

theorem attributed_recordHref_mono {m : GroupedMap} {key : Bool × String}
    {hard_404 : Bool} {href : Href}
    (ha : attributed m key hard_404 href = true)
    (hard2 : Bool) (href2 : Href) (key2 : Bool × String) :
    attributed (recordHref hard2 href2 key2 m) key hard_404 href = true := by
  by_cases hk : key = key2
  · subst hk
    unfold attributed at ha ⊢
    unfold recordHref
    rw [alook_aupd_self]
    cases hv : alook key m with
    | none => rw [hv] at ha; cases ha
    | some v =>
      rw [hv] at ha
      simp only [decide_eq_true_eq] at ha
      cases hard2 with
      | true =>
        cases hard_404 with
        | true =>
          simp at ha ⊢
          exact mem_insertSet_of_mem _ ha
        | false =>
          simp at ha ⊢
          exact ha
      | false =>
        cases hard_404 with
        | true =>
          simp at ha ⊢
          exact ha
        | false =>
          simp at ha ⊢
          exact mem_insertSet_of_mem _ ha
  · unfold attributed
    rw [alook_recordHref_ne _ _ _ hk]
    exact ha

theorem foldl_record_mono {hard_404 : Bool} {href : Href}
    {key : Bool × String} {hard2 : Bool} {href2 : Href} :
    ∀ (srcs : List String) (m : GroupedMap),
    attributed m key hard_404 href = true →
    attributed (srcs.foldl
      (fun m q => recordHref hard2 href2 (false, q) m) m) key hard_404 href
      = true := by
  intro srcs
  induction srcs with
  | nil => intro m ha; exact ha
  | cons s0 rest ih =>
    intro m ha
    rw [List.foldl_cons]
    exact ih _ (attributed_recordHref_mono ha hard2 href2 (false, s0))

theorem foldl_record_attributes {hard_404 : Bool} {href : Href} :
    ∀ (srcs : List String) (m : GroupedMap),
    (∀ s ∈ srcs,
      attributed (srcs.foldl
        (fun m q => recordHref hard_404 href (false, q) m) m)
        (false, s) hard_404 href = true) ∧
    (∀ key : Bool × String, key.1 = true →
      alook key (srcs.foldl
        (fun m q => recordHref hard_404 href (false, q) m) m) = alook key m) ∧
    (∀ q : String, q ∉ srcs →
      alook (false, q) (srcs.foldl
        (fun m q => recordHref hard_404 href (false, q) m) m)
        = alook (false, q) m) := by
  intro srcs
  induction srcs with
  | nil => intro m; exact ⟨fun s hs => absurd hs (List.not_mem_nil s), fun _ _ => rfl, fun _ _ => rfl⟩
  | cons s0 rest ih =>
    intro m
    refine ⟨?_, ?_, ?_⟩
    · intro s hs
      rw [List.foldl_cons]
      rcases List.mem_cons.mp hs with hs | hs
      · rw [hs]
        exact foldl_record_mono rest _
          (attributed_recordHref_self hard_404 href (false, s0) m)
      · exact (ih _).1 s hs
    · intro key hkey
      rw [List.foldl_cons, (ih _).2.1 key hkey]
      refine alook_recordHref_ne _ _ _ ?_
      intro hc
      rw [hc] at hkey
      cases hkey
    · intro q hq
      rw [List.foldl_cons]
      have hq0 : q ≠ s0 := fun hc => hq (hc ▸ List.mem_cons_self _ _)
      have hqrest : q ∉ rest := fun hc => hq (List.mem_cons_of_mem _ hc)
      rw [(ih _).2.2 q hqrest]
      refine alook_recordHref_ne _ _ _ ?_
      intro hc
      exact hq0 (congrArg Prod.snd hc)

/-- C6: a usage whose fingerprint is in the paragraph index with
sources `srcs` gets `href` recorded under (false, s) for every s in
`srcs` while every raw (true, _) entry is untouched and every source
entry outside `srcs` is untouched; a usage with no fingerprint, or a
fingerprint absent from the index, records `href` exactly once, under
the raw key (true, link.path), leaving every other entry untouched. -/
theorem attribution_preference {P : Type} [DecidableEq P] (hard_404 : Bool)
    (href : Href) (index : List (P × List String)) (m : GroupedMap)
    (link : UsedLink P) :
    (∀ (p : P) (srcs : List String), link.paragraph = some p →
      alook p index = some srcs →
      (∀ s ∈ srcs,
        attributed (processLink hard_404 href index m link) (false, s)
          hard_404 href = true) ∧
      (∀ key : Bool × String, key.1 = true →
        alook key (processLink hard_404 href index m link) = alook key m) ∧
      (∀ q : String, q ∉ srcs →
        alook (false, q) (processLink hard_404 href index m link)
          = alook (false, q) m)) ∧
    ((link.paragraph = none ∨
        (∃ p, link.paragraph = some p ∧ alook p index = none)) →
      processLink hard_404 href index m link
          = recordHref hard_404 href (true, link.path) m ∧
      attributed (processLink hard_404 href index m link) (true, link.path)
          hard_404 href = true ∧
      (∀ key : Bool × String, key ≠ (true, link.path) →
        alook key (processLink hard_404 href index m link) = alook key m)) := by
  constructor
  · intro p srcs hp hsrcs
    have hproc : processLink hard_404 href index m link
        = srcs.foldl (fun m source => recordHref hard_404 href (false, source) m) m := by
      unfold processLink
      simp [hp, hsrcs]
    rw [hproc]
    have h1 := @foldl_record_attributes hard_404 href srcs m
    exact h1
  · intro hcase
    have hproc : processLink hard_404 href index m link
        = recordHref hard_404 href (true, link.path) m := by
      unfold processLink
      rcases hcase with hnone | ⟨p, hp, hmiss⟩
      · rw [hnone]
      · simp [hp, hmiss]
    rw [hproc]
    exact ⟨rfl, attributed_recordHref_self _ _ _ _,
      fun key hk => alook_recordHref_ne _ _ _ hk⟩

def exIndex : List (Nat × List String) :=
  [(7, ["src/a.md", "src/b.md"])]

def exLinkWithPar : UsedLink Nat :=
  { href := exHrefB, path := "out/x.html", paragraph := some 7 }

/-- C6 witness: the concrete usage with fingerprint 7 is attributed to
both source documents of the index entry and the raw path is untouched. -/
theorem attribution_preference_witness :
    attributed (processLink true exHrefB exIndex [] exLinkWithPar)
        (false, "src/a.md") true exHrefB = true ∧
    attributed (processLink true exHrefB exIndex [] exLinkWithPar)
        (false, "src/b.md") true exHrefB = true ∧
    alook ((true, "out/x.html") : Bool × String)
        (processLink true exHrefB exIndex [] exLinkWithPar) = none :=
  ⟨((attribution_preference true exHrefB exIndex [] exLinkWithPar).1 7
      ["src/a.md", "src/b.md"] rfl rfl).1 "src/a.md" (by decide),
   ((attribution_preference true exHrefB exIndex [] exLinkWithPar).1 7
      ["src/a.md", "src/b.md"] rfl rfl).1 "src/b.md" (by decide),
   ((attribution_preference true exHrefB exIndex [] exLinkWithPar).1 7
      ["src/a.md", "src/b.md"] rfl rfl).2.1 (true, "out/x.html") rfl⟩

/-! ### Fatal scan errors abort the run (src/main.rs lines 103-170) -/

theorem except_bind_ok {ε α β : Type} (a : α) (f : α → Except ε β) :
    (Except.ok a >>= f) = f a := rfl

theorem except_bind_error {ε α β : Type} (e : ε) (f : α → Except ε β) :
    ((Except.error e : Except ε α) >>= f) = Except.error e := rfl

theorem processEntry_fatal {P : Type} {e : ScanEntry P}
    (hf : fatalEntry e = true) (acc : List (Link P) × Nat × Nat) :
    ∃ msg, processEntry acc e = Except.error msg := by
  cases e with
  | walkError msg => exact ⟨msg, rfl⟩
  | symlink p => exact ⟨_, rfl⟩
  | nonFile p => simp [fatalEntry] at hf
  | plainFile p href => simp [fatalEntry] at hf
  | htmlFile p href extracted =>
    cases extracted with
    | error msg => exact ⟨_, rfl⟩
    | ok links => simp [fatalEntry] at hf

theorem processEntry_ok {P : Type} {e : ScanEntry P}
    (hf : fatalEntry e = false) (acc : List (Link P) × Nat × Nat) :
    ∃ acc', processEntry acc e = Except.ok acc' := by
  cases e with
  | walkError msg => simp [fatalEntry] at hf
  | symlink p => simp [fatalEntry] at hf
  | nonFile p => exact ⟨acc, rfl⟩
  | plainFile p href => exact ⟨_, rfl⟩
  | htmlFile p href extracted =>
    cases extracted with
    | error msg => simp [fatalEntry] at hf
    | ok links => exact ⟨_, rfl⟩

theorem scan_fold_error {P : Type} :
    ∀ (entries : List (ScanEntry P)) (acc : List (Link P) × Nat × Nat),
    (∃ e ∈ entries, fatalEntry e = true) →
    ∃ msg, entries.foldlM processEntry acc = Except.error msg := by
  intro entries
  induction entries with
  | nil =>
    intro acc h
    simp at h
  | cons e rest ih =>
    intro acc h
    rw [List.foldlM_cons]
    cases hf : fatalEntry e with
    | true =>
      obtain ⟨msg, hmsg⟩ := processEntry_fatal hf acc
      rw [hmsg, except_bind_error]
      exact ⟨msg, rfl⟩
    | false =>
      obtain ⟨acc', hacc⟩ := processEntry_ok hf acc
      rw [hacc, except_bind_ok]
      refine ih acc' ?_
      rcases h with ⟨e', he', hfe'⟩
      rcases List.mem_cons.mp he' with he' | he'
      · rw [he'] at hfe'
        rw [hfe'] at hf
        cases hf
      · exact ⟨e', he', hfe'⟩

theorem scan_fold_append_error {P : Type} {bad : ScanEntry P} {msgf : String}
    (hbad : ∀ acc : List (Link P) × Nat × Nat,
      processEntry acc bad = Except.error msgf) :
    ∀ (pre rest : List (ScanEntry P)) (acc : List (Link P) × Nat × Nat),
    (∀ e ∈ pre, fatalEntry e = false) →
    (pre ++ bad :: rest).foldlM processEntry acc = Except.error msgf := by
  intro pre
  induction pre with
  | nil =>
    intro rest acc _
    rw [List.nil_append, List.foldlM_cons, hbad acc, except_bind_error]
  | cons e pre' ih =>
    intro rest acc hok
    rw [List.cons_append, List.foldlM_cons]
    obtain ⟨acc', hacc⟩ := processEntry_ok (hok e (List.mem_cons_self _ _)) acc
    rw [hacc, except_bind_ok]
    exact ih rest acc' (fun e' he' => hok e' (List.mem_cons_of_mem _ he'))

theorem runMain_error_of_scan {P : Type} [DecidableEq P] {ca : Bool}
    {index : List (P × List String)} {entries : List (ScanEntry P)}
    {msg : String} (h : runScan entries = Except.error msg) :
    runMain ca index entries = Except.error msg := by
  unfold runMain
  rw [h]

/-- C7: any fatal per-entry error (walk error, symlink, failed html
extraction) makes the whole run return an error instead of a report;
when the entries before the fatal one are clean, the error is exactly
the symlink / read-failure message carrying the offending path. -/
theorem fatal_aborts {P : Type} [DecidableEq P] (ca : Bool)
    (index : List (P × List String)) (entries : List (ScanEntry P)) :
    ((∃ e ∈ entries, fatalEntry e = true) →
      ∃ msg, runMain ca index entries = Except.error msg) ∧
    (∀ r, runMain ca index entries = Except.ok r →
      ∀ e ∈ entries, fatalEntry e = false) ∧
    (∀ (pre rest : List (ScanEntry P)) (p : String),
      (∀ e ∈ pre, fatalEntry e = false) →
      entries = pre ++ ScanEntry.symlink p :: rest →
      runMain ca index entries
        = Except.error ("Found unsupported symlink at " ++ p)) ∧
    (∀ (pre rest : List (ScanEntry P)) (p msg : String) (href : Href),
      (∀ e ∈ pre, fatalEntry e = false) →
      entries = pre ++ ScanEntry.htmlFile p href (Except.error msg) :: rest →
      runMain ca index entries
        = Except.error ("Failed to read file " ++ p ++ ": " ++ msg)) := by
  have habort : (∃ e ∈ entries, fatalEntry e = true) →
      ∃ msg, runMain ca index entries = Except.error msg := by
    intro h
    obtain ⟨msg, hmsg⟩ := scan_fold_error entries ([], 0, 0) h
    exact ⟨msg, runMain_error_of_scan hmsg⟩
  refine ⟨habort, ?_, ?_, ?_⟩
  · intro r hr e he
    cases hf : fatalEntry e with
    | false => rfl
    | true =>
      obtain ⟨msg, hmsg⟩ := habort ⟨e, he, hf⟩
      rw [hmsg] at hr
      cases hr
  · intro pre rest p hok hentries
    subst hentries
    exact runMain_error_of_scan
      (@scan_fold_append_error P (ScanEntry.symlink p)
        ("Found unsupported symlink at " ++ p) (fun _ => rfl) pre rest
        ([], 0, 0) hok)
  · intro pre rest p msg href hok hentries
    subst hentries
    exact runMain_error_of_scan
      (@scan_fold_append_error P (ScanEntry.htmlFile p href (Except.error msg))
        ("Failed to read file " ++ p ++ ": " ++ msg) (fun _ => rfl) pre rest
        ([], 0, 0) hok)

/-- C7 witness: a run whose only entry is a symlink aborts with the
symlink error and its path. -/
theorem fatal_aborts_witness :
    runMain true ([] : List (Nat × List String))
        [ScanEntry.symlink "public/link"]
      = Except.error ("Found unsupported symlink at " ++ "public/link") :=
  (fatal_aborts true [] [ScanEntry.symlink "public/link"]).2.2.1 [] []
    "public/link" (fun e he => absurd he (List.not_mem_nil e)) rfl
